import Mathlib

/-!
Verification of the performance-metrics engine of a trading-performance
tracker.  The engine consists of four pure functions over lists of trade
and deposit records: `calculatePnl`, `buildEquityCurve`,
`aggregateDailyPnl` and `calculateMetrics`.  Monetary amounts are
modelled as exact rationals (the source works with JavaScript numbers);
dates are the ISO `yyyy-mm-dd` strings stored on the records, compared
through `parseISOKey`, an order-isomorphic model of
`parseISO(date).getTime()`.
-/

namespace Reflect

/-- The `side` of a trade: informational only, has no computational role. -/
inductive TradeSide where
  | long
  | short
deriving DecidableEq, Repr

/-- The `outcome` of a trade: determines the sign of its P&L contribution. -/
inductive TradeOutcome where
  | win
  | loss
deriving DecidableEq, Repr

/-- One closed position outcome, as stored by the application. -/
structure Trade where
  id : String
  date : String
  asset : String
  side : TradeSide
  outcome : TradeOutcome
  amount : ℚ
  note : Option String := none
deriving DecidableEq, Repr

/-- A capital contribution (deposit), independent of trading P&L. -/
structure CashMove where
  id : String
  date : String
  amount : ℚ
  note : Option String := none
deriving DecidableEq, Repr

/-- One point of the derived equity curve. -/
structure EquityPoint where
  date : String
  value : ℚ
  pnl : ℚ
deriving DecidableEq, Repr

/-- The derived summary statistics record. -/
structure TrackRecordMetrics where
  netPnl : ℚ
  winRate : ℚ
  profitFactor : Option ℚ
  riskReward : Option ℚ
  maxDrawdown : ℚ
  averageWin : Option ℚ
  averageLoss : Option ℚ
  totalTrades : ℕ
deriving DecidableEq, Repr

/-- Model of `calculatePnl`: `sign = outcome === "win" ? 1 : -1; amount * sign`. -/
def calculatePnl (trade : Trade) : ℚ :=
  let sign : ℚ := if trade.outcome = TradeOutcome.win then 1 else -1
  trade.amount * sign

/-- An intermediate event of the equity-curve computation:
`{date, delta}`. -/
structure Entry where
  date : String
  delta : ℚ
deriving DecidableEq, Repr

/-- Models `parseISO(s).getTime()` for well-formed ISO `yyyy-mm-dd` date
strings, up to order isomorphism: reading the digits of `yyyy-mm-dd`
while skipping the dashes yields the number `yyyymmdd`, which is
strictly monotone in the calendar instant `parseISO` returns.  Only the
induced ordering of date strings is ever used by the engine. -/
def parseISOKey (s : String) : ℕ :=
  s.data.foldl (fun acc c => if c = '-' then acc else acc * 10 + (c.toNat - 48)) 0

/-- The comparator of the sort in `buildEquityCurve`:
`parseISO(a.date).getTime() - parseISO(b.date).getTime()` is
non-positive exactly when the key of `a` is at most the key of `b`. -/
def entryLE (a b : Entry) : Prop :=
  parseISOKey a.date ≤ parseISOKey b.date

instance entryLE.instDecidableRel : DecidableRel entryLE := fun a b =>
  inferInstanceAs (Decidable (parseISOKey a.date ≤ parseISOKey b.date))

instance entryLE.instIsTotal : IsTotal Entry entryLE :=
  ⟨fun a b => Nat.le_total (parseISOKey a.date) (parseISOKey b.date)⟩

instance entryLE.instIsTrans : IsTrans Entry entryLE :=
  ⟨fun _ _ _ hab hbc => Nat.le_trans hab hbc⟩

/-- The concatenated event list of `buildEquityCurve`: every trade
mapped to `{date, delta = calculatePnl trade}`, followed by every
deposit mapped to `{date, delta = deposit.amount}`. -/
def entriesOf (trades : List Trade) (deposits : List CashMove) : List Entry :=
  trades.map (fun trade => { date := trade.date, delta := calculatePnl trade }) ++
    deposits.map (fun deposit => { date := deposit.date, delta := deposit.amount })

/-- The event list after the `.sort(...)` call.  JavaScript
`Array.prototype.sort` is a stable sort (ES2019); for the total
preorder induced by `entryLE` every stable sort produces the same
output, modelled here by the stable `List.insertionSort`. -/
def sortedEntries (trades : List Trade) (deposits : List CashMove) : List Entry :=
  (entriesOf trades deposits).insertionSort entryLE

/-- The final `.map` of `buildEquityCurve`: walk the entries with a
running `equity` accumulator (the source mutates `equity += delta`)
and emit one `EquityPoint` per entry. -/
def equityScan (equity : ℚ) : List Entry → List EquityPoint
  | [] => []
  | entry :: rest =>
      { date := entry.date, value := equity + entry.delta, pnl := entry.delta } ::
        equityScan (equity + entry.delta) rest

/-- Model of `buildEquityCurve`: map trades and deposits to events, stable-sort
ascending by parsed date, then emit cumulative equity points.  The
source gives `deposits` the default value `[]`; callers that omit the
argument are modelled by passing `[]` explicitly. -/
def buildEquityCurve (trades : List Trade) (deposits : List CashMove) : List EquityPoint :=
  equityScan 0 (sortedEntries trades deposits)

/-- One step of the `aggregateDailyPnl` reduction:
`acc[dayKey] = (acc[dayKey] ?? 0) + pnl` on a JavaScript object, i.e.
add to the entry of an existing key in place, or append a fresh key at
the end (JavaScript string keys enumerate in insertion order). -/
def addToKey : List (String × ℚ) → String → ℚ → List (String × ℚ)
  | [], k, p => [(k, p)]
  | (k', v) :: rest, k, p =>
      if k' = k then (k', v + p) :: rest else (k', v) :: addToKey rest k p

/-- Model of `aggregateDailyPnl`: reduce the trades into a mapping from date
string to summed P&L, starting from the empty object. -/
def aggregateDailyPnl (trades : List Trade) : List (String × ℚ) :=
  trades.foldl (fun acc trade => addToKey acc trade.date (calculatePnl trade)) []

/-- The local `sum` helper of `calculateMetrics`:
`arr.reduce((a, b) => a + b, 0)`. -/
def sumQ (arr : List ℚ) : ℚ :=
  arr.foldl (fun a b => a + b) 0

/-- The local `pnls` of `calculateMetrics`: `trades.map(calculatePnl)`. -/
def pnlsOf (trades : List Trade) : List ℚ :=
  trades.map calculatePnl

/-- The local `winners` of `calculateMetrics`:
`pnls.filter((p) => p > 0)`. -/
def winnersOf (trades : List Trade) : List ℚ :=
  (pnlsOf trades).filter (fun p => decide (0 < p))

/-- The local `losers` of `calculateMetrics`:
`pnls.filter((p) => p < 0)`. -/
def losersOf (trades : List Trade) : List ℚ :=
  (pnlsOf trades).filter (fun p => decide (p < 0))

/-- The `forEach` drawdown loop of `calculateMetrics`: mutate
`peak = max(peak, value)` then `maxDrawdown = max(maxDrawdown, peak - value)`
over the equity points. -/
def ddLoop (peak maxDrawdown : ℚ) : List EquityPoint → ℚ
  | [] => maxDrawdown
  | point :: rest =>
      ddLoop (max peak point.value)
        (max maxDrawdown (max peak point.value - point.value)) rest

/-- Model of `calculateMetrics`: summary statistics of a trade list.  The empty
list is a terminal case returning all-zero/null metrics; otherwise the
per-trade P&Ls are partitioned into winners (`p > 0`) and losers
(`p < 0`), averages and ratios guard their denominators by returning
`none`, and `maxDrawdown` walks the equity curve built from the trades
only (`buildEquityCurve(trades)`, deposits defaulted to `[]`). -/
def calculateMetrics (trades : List Trade) : TrackRecordMetrics :=
  if trades.length = 0 then
    { netPnl := 0, winRate := 0, profitFactor := none, riskReward := none,
      maxDrawdown := 0, averageWin := none, averageLoss := none, totalTrades := 0 }
  else
    let pnls := pnlsOf trades
    let winners := winnersOf trades
    let losers := losersOf trades
    let averageWin :=
      if winners.length ≠ 0 then some (sumQ winners / (winners.length : ℚ)) else none
    let averageLoss :=
      if losers.length ≠ 0 then some (sumQ losers / (losers.length : ℚ)) else none
    let profitFactor :=
      if winners.length ≠ 0 ∧ losers.length ≠ 0 then
        some (sumQ winners / |sumQ losers|)
      else none
    let riskReward :=
      match averageWin, averageLoss with
      | some aw, some al => if al ≠ 0 then some (aw / |al|) else none
      | _, _ => none
    let equityPoints := buildEquityCurve trades []
    { netPnl := sumQ pnls,
      winRate := ((winners.length : ℚ) / (trades.length : ℚ)) * 100,
      profitFactor := profitFactor,
      riskReward := riskReward,
      maxDrawdown := ddLoop 0 0 equityPoints,
      averageWin := averageWin,
      averageLoss := averageLoss,
      totalTrades := trades.length }

/-- The drawdown loop restated on the bare list of equity values, used
to relate `ddLoop` to its closed-form characterisation. -/
def ddVals (peak maxDrawdown : ℚ) : List ℚ → ℚ
  | [] => maxDrawdown
  | v :: rest => ddVals (max peak v) (max maxDrawdown (max peak v - v)) rest

/-- The running peak of a value list at index `i`, seeded with 0:
`max(0, vs[0], ..., vs[i])`. -/
def peakUpTo (vs : List ℚ) (i : ℕ) : ℚ :=
  (vs.take (i + 1)).foldl (fun a b => max a b) 0

/-- Closed-form drawdown: the maximum over all indices `i` of the value
list of `(running peak at i) - vs[i]`, floored at 0.  This is the
spec's description of `maxDrawdown` as a maximum over the curve's
points, computed per point rather than with the mutable loop of the
source. -/
def drawdownSpec (vs : List ℚ) : ℚ :=
  (List.range vs.length).foldl (fun m i => max m (peakUpTo vs i - vs.getD i 0)) 0

/-- Concrete winning trade of 200 on 2024-01-01 (spec Scenario B). -/
def winTrade200 : Trade :=
  { id := "t0", date := "2024-01-01", asset := "ES", side := TradeSide.long,
    outcome := TradeOutcome.win, amount := 200 }

/-- Concrete losing trade of 300 on 2024-01-02 (spec Scenario D). -/
def lossTrade300 : Trade :=
  { id := "t1", date := "2024-01-02", asset := "ES", side := TradeSide.short,
    outcome := TradeOutcome.loss, amount := 300 }

/-- Concrete deposit of 1000 on 2024-01-01 (spec Scenario D). -/
def deposit1000 : CashMove :=
  { id := "d1", date := "2024-01-01", amount := 1000 }

/-! ### Basic accumulator lemmas -/

theorem foldl_add_eq (q : ℚ) (l : List ℚ) : l.foldl (fun a b => a + b) q = q + l.sum := by
  induction l generalizing q with
  | nil => simp
  | cons x l ih => simp [ih, add_assoc]

theorem sumQ_eq_sum (l : List ℚ) : sumQ l = l.sum := by
  simp [sumQ, foldl_add_eq]

theorem equityScan_length (q : ℚ) (es : List Entry) :
    (equityScan q es).length = es.length := by
  induction es generalizing q with
  | nil => rfl
  | cons e rest ih => simp [equityScan, ih]

theorem equityScan_map_date_pnl (q : ℚ) (es : List Entry) :
    (equityScan q es).map (fun p => (p.date, p.pnl)) =
      es.map (fun e => (e.date, e.delta)) := by
  induction es generalizing q with
  | nil => rfl
  | cons e rest ih => simp [equityScan, ih]

theorem getLast_cons_of_ne_nil {α : Type u_1} (a : α) (l : List α) (h : l ≠ []) :
    (a :: l).getLast? = l.getLast? := by
  cases l with
  | nil => exact absurd rfl h
  | cons b l' => exact List.getLast?_cons_cons

theorem equityScan_getLast_value (q : ℚ) (es : List Entry) (h : es ≠ []) :
    (equityScan q es).getLast?.map (fun p => p.value) =
      some (q + (es.map Entry.delta).sum) := by
  induction es generalizing q with
  | nil => exact absurd rfl h
  | cons e rest ih =>
    cases rest with
    | nil => simp [equityScan, add_comm]
    | cons e' rest' =>
      have hstep :
          equityScan q (e :: e' :: rest') =
            { date := e.date, value := q + e.delta, pnl := e.delta } ::
              equityScan (q + e.delta) (e' :: rest') := rfl
      have hne : (e' :: rest') ≠ ([] : List Entry) := by simp
      have hscan : equityScan (q + e.delta) (e' :: rest') ≠ [] := by
        intro hnil
        have hlen := congrArg List.length hnil
        rw [equityScan_length] at hlen
        simp at hlen
      rw [hstep, getLast_cons_of_ne_nil _ _ hscan, ih (q + e.delta) hne]
      simp [add_assoc]

theorem sortedEntries_perm (trades : List Trade) (deposits : List CashMove) :
    List.Perm (sortedEntries trades deposits) (entriesOf trades deposits) :=
  List.perm_insertionSort entryLE (entriesOf trades deposits)

/-! ### Projections of `calculateMetrics` on non-empty input -/

theorem length_ne_zero_of_ne_nil {α : Type u_1} {l : List α} (h : l ≠ []) :
    ¬ l.length = 0 := by
  simpa using h

theorem netPnl_of_ne_nil (trades : List Trade) (h : trades ≠ []) :
    (calculateMetrics trades).netPnl = sumQ (pnlsOf trades) := by
  simp [calculateMetrics, length_ne_zero_of_ne_nil h]

theorem winRate_of_ne_nil (trades : List Trade) (h : trades ≠ []) :
    (calculateMetrics trades).winRate =
      ((winnersOf trades).length : ℚ) / (trades.length : ℚ) * 100 := by
  simp [calculateMetrics, length_ne_zero_of_ne_nil h]

theorem profitFactor_of_ne_nil (trades : List Trade) (h : trades ≠ []) :
    (calculateMetrics trades).profitFactor =
      if (winnersOf trades).length ≠ 0 ∧ (losersOf trades).length ≠ 0 then
        some (sumQ (winnersOf trades) / |sumQ (losersOf trades)|)
      else none := by
  simp only [calculateMetrics, length_ne_zero_of_ne_nil h, if_false]

theorem riskReward_of_ne_nil (trades : List Trade) (h : trades ≠ []) :
    (calculateMetrics trades).riskReward =
      match
        (if (winnersOf trades).length ≠ 0 then
          some (sumQ (winnersOf trades) / ((winnersOf trades).length : ℚ)) else none),
        (if (losersOf trades).length ≠ 0 then
          some (sumQ (losersOf trades) / ((losersOf trades).length : ℚ)) else none) with
      | some aw, some al => if al ≠ 0 then some (aw / |al|) else none
      | _, _ => none := by
  simp only [calculateMetrics, length_ne_zero_of_ne_nil h, if_false]

theorem maxDrawdown_of_ne_nil (trades : List Trade) (h : trades ≠ []) :
    (calculateMetrics trades).maxDrawdown = ddLoop 0 0 (buildEquityCurve trades []) := by
  simp [calculateMetrics, length_ne_zero_of_ne_nil h]

theorem averageWin_of_ne_nil (trades : List Trade) (h : trades ≠ []) :
    (calculateMetrics trades).averageWin =
      if (winnersOf trades).length ≠ 0 then
        some (sumQ (winnersOf trades) / ((winnersOf trades).length : ℚ)) else none := by
  simp only [calculateMetrics, length_ne_zero_of_ne_nil h, if_false]

theorem averageLoss_of_ne_nil (trades : List Trade) (h : trades ≠ []) :
    (calculateMetrics trades).averageLoss =
      if (losersOf trades).length ≠ 0 then
        some (sumQ (losersOf trades) / ((losersOf trades).length : ℚ)) else none := by
  simp only [calculateMetrics, length_ne_zero_of_ne_nil h, if_false]

theorem totalTrades_of_ne_nil (trades : List Trade) (h : trades ≠ []) :
    (calculateMetrics trades).totalTrades = trades.length := by
  simp [calculateMetrics, length_ne_zero_of_ne_nil h]

/-! ### Stability of the sort -/

theorem filter_insertionSort_of_mutual {α : Type u_1} {r : α → α → Prop} [DecidableRel r]
    (p : α → Bool) (l : List α)
    (hp : ∀ a b, p a = true → p b = true → r a b) :
    (l.insertionSort r).filter p = l.filter p := by
  have hall : ∀ a ∈ l.filter p, p a = true := fun a ha => List.of_mem_filter ha
  have hpw : (l.filter p).Pairwise r :=
    List.pairwise_of_forall_mem_list (fun a ha b hb => hp a b (hall a ha) (hall b hb))
  have h1 : List.Sublist (l.filter p) (l.insertionSort r) :=
    List.sublist_insertionSort hpw (List.filter_sublist l)
  have h2 : List.Sublist (l.filter p) ((l.insertionSort r).filter p) := by
    have h3 := h1.filter p
    rwa [List.filter_eq_self.mpr hall] at h3
  have hperm : List.Perm ((l.insertionSort r).filter p) (l.filter p) :=
    (List.perm_insertionSort r l).filter p
  exact (h2.eq_of_length hperm.length_eq.symm).symm

/-! ### Drawdown lemmas -/

theorem ddLoop_eq_ddVals (peak dd : ℚ) (points : List EquityPoint) :
    ddLoop peak dd points = ddVals peak dd (points.map (fun p => p.value)) := by
  induction points generalizing peak dd with
  | nil => rfl
  | cons point rest ih => simp [ddLoop, ddVals, ih]

theorem ddVals_eq_spec (vs : List ℚ) :
    ∀ peak dd : ℚ,
      ddVals peak dd vs =
        (List.range vs.length).foldl
          (fun m i => max m ((vs.take (i + 1)).foldl (fun a b => max a b) peak - vs.getD i 0))
          dd := by
  induction vs with
  | nil => intro peak dd; rfl
  | cons v rest ih =>
    intro peak dd
    rw [show ddVals peak dd (v :: rest) =
        ddVals (max peak v) (max dd (max peak v - v)) rest from rfl]
    rw [ih (max peak v) (max dd (max peak v - v))]
    rw [show (v :: rest).length = rest.length + 1 from rfl, List.range_succ_eq_map]
    rw [List.foldl_cons, List.foldl_map]
    have hzero :
        max dd (((v :: rest).take (0 + 1)).foldl (fun a b => max a b) peak -
          (v :: rest).getD 0 0) = max dd (max peak v - v) := by
      simp
    rw [hzero]
    have hfun :
        (fun (m : ℚ) (i : ℕ) =>
            max m (((v :: rest).take (i + 1 + 1)).foldl (fun a b => max a b) peak -
              (v :: rest).getD (i + 1) 0)) =
          fun (m : ℚ) (i : ℕ) =>
            max m ((rest.take (i + 1)).foldl (fun a b => max a b) (max peak v) -
              rest.getD i 0) := by
      funext m i
      simp [List.take_succ_cons, List.foldl_cons]
    rw [hfun]

theorem ddLoop_ge (peak dd : ℚ) (points : List EquityPoint) :
    dd ≤ ddLoop peak dd points := by
  induction points generalizing peak dd with
  | nil => exact le_refl dd
  | cons point rest ih =>
    exact le_trans (le_max_left dd _) (ih (max peak point.value) _)

theorem ddLoop_of_chain (points : List EquityPoint) :
    ∀ peak dd : ℚ, 0 ≤ dd →
      List.Chain (fun a b => a ≤ b) peak (points.map (fun p => p.value)) →
      ddLoop peak dd points = dd := by
  induction points with
  | nil => intro peak dd _ _; rfl
  | cons point rest ih =>
    intro peak dd hdd hchain
    rw [List.map_cons, List.chain_cons] at hchain
    obtain ⟨hpv, hrest⟩ := hchain
    have hmax : max peak point.value = point.value := max_eq_right hpv
    rw [show ddLoop peak dd (point :: rest) =
        ddLoop (max peak point.value)
          (max dd (max peak point.value - point.value)) rest from rfl]
    rw [hmax, sub_self, max_eq_left hdd]
    exact ih point.value dd hdd hrest

/-! ### Daily aggregation lemmas -/

theorem addToKey_values_sum (m : List (String × ℚ)) (k : String) (p : ℚ) :
    ((addToKey m k p).map (fun kv => kv.2)).sum = (m.map (fun kv => kv.2)).sum + p := by
  induction m with
  | nil => simp [addToKey]
  | cons kv rest ih =>
    obtain ⟨k', v⟩ := kv
    by_cases hk : k' = k
    · simp [addToKey, hk, add_assoc, add_comm]
    · simp [addToKey, hk, ih, add_assoc]

theorem mem_keys_addToKey (m : List (String × ℚ)) (k : String) (p : ℚ) (d : String) :
    d ∈ (addToKey m k p).map (fun kv => kv.1) ↔
      d ∈ m.map (fun kv => kv.1) ∨ d = k := by
  induction m with
  | nil => simp [addToKey]
  | cons kv rest ih =>
    obtain ⟨k', v⟩ := kv
    by_cases hk : k' = k
    · subst hk
      simp [addToKey]
      tauto
    · simp [addToKey, hk, ih]
      tauto

theorem aggregate_foldl_sum (trades : List Trade) :
    ∀ acc : List (String × ℚ),
      ((trades.foldl (fun acc trade => addToKey acc trade.date (calculatePnl trade))
            acc).map (fun kv => kv.2)).sum =
        (acc.map (fun kv => kv.2)).sum + (trades.map calculatePnl).sum := by
  induction trades with
  | nil => intro acc; simp
  | cons t rest ih =>
    intro acc
    rw [List.foldl_cons, ih (addToKey acc t.date (calculatePnl t)), addToKey_values_sum]
    simp [add_assoc, add_comm, add_left_comm]

theorem aggregate_foldl_keys (trades : List Trade) :
    ∀ (acc : List (String × ℚ)) (d : String),
      d ∈ ((trades.foldl (fun acc trade => addToKey acc trade.date (calculatePnl trade))
            acc).map (fun kv => kv.1)) ↔
        d ∈ acc.map (fun kv => kv.1) ∨ ∃ t ∈ trades, t.date = d := by
  induction trades with
  | nil => intro acc d; simp
  | cons t rest ih =>
    intro acc d
    rw [List.foldl_cons, ih (addToKey acc t.date (calculatePnl t)) d, mem_keys_addToKey]
    simp only [List.mem_cons]
    constructor
    · rintro ((hacc | hdk) | ⟨t', ht', hd⟩)
      · exact Or.inl hacc
      · exact Or.inr ⟨t, Or.inl rfl, hdk.symm⟩
      · exact Or.inr ⟨t', Or.inr ht', hd⟩
    · rintro (hacc | ⟨t', ht' | ht', hd⟩)
      · exact Or.inl (Or.inl hacc)
      · subst ht'; exact Or.inl (Or.inr hd.symm)
      · exact Or.inr ⟨t', ht', hd⟩

/-! ### Partition counting -/

theorem filter_length_partition (l : List ℚ) :
    (l.filter (fun p => decide (0 < p))).length + (l.filter (fun p => decide (p < 0))).length +
        (l.filter (fun p => decide (p = 0))).length = l.length := by
  induction l with
  | nil => rfl
  | cons x rest ih =>
    rcases lt_trichotomy 0 x with hx | hx | hx
    · have h1 : ¬ x < 0 := not_lt_of_gt hx
      have h2 : ¬ x = 0 := fun hc => absurd hc.symm (ne_of_lt hx)
      simp [List.filter_cons, hx, h1, h2]
      omega
    · subst hx
      simp [List.filter_cons]
      omega
    · have h1 : ¬ 0 < x := not_lt_of_gt hx
      have h2 : ¬ x = 0 := ne_of_lt hx
      simp [List.filter_cons, hx, h1, h2]
      omega

theorem calculatePnl_eq_zero_iff (trade : Trade) :
    calculatePnl trade = 0 ↔ trade.amount = 0 := by
  unfold calculatePnl
  cases houtcome : trade.outcome <;> simp

/-! ### Claim theorems -/

/-- C1: for every list of trades and every list of deposits,
`buildEquityCurve` returns a sequence of length
`trades.length + deposits.length`; the value of the last point equals
the sum of `calculatePnl` over all trades plus the sum of `amount`
over all deposits; and when both input lists are empty the result is
the empty sequence. -/
theorem buildEquityCurve_length_last_value (trades : List Trade) (deposits : List CashMove) :
    (buildEquityCurve trades deposits).length = trades.length + deposits.length ∧
    ((buildEquityCurve trades deposits).getLast?).map (fun p => p.value) =
      (if trades.length + deposits.length = 0 then none
       else some ((trades.map calculatePnl).sum +
         (deposits.map (fun d => d.amount)).sum)) ∧
    (trades = [] → deposits = [] → buildEquityCurve trades deposits = []) := by
  have hlen_entries : (entriesOf trades deposits).length = trades.length + deposits.length := by
    simp [entriesOf]
  have hlen : (buildEquityCurve trades deposits).length = trades.length + deposits.length := by
    rw [buildEquityCurve, equityScan_length, sortedEntries, List.length_insertionSort,
      hlen_entries]
  refine ⟨hlen, ?_, ?_⟩
  · by_cases hempty : trades.length + deposits.length = 0
    · rw [if_pos hempty]
      have hnil : buildEquityCurve trades deposits = [] :=
        List.length_eq_zero.mp (by rw [hlen, hempty])
      rw [hnil]
      rfl
    · rw [if_neg hempty]
      have hne : sortedEntries trades deposits ≠ [] := by
        intro hnil
        apply hempty
        have hc := congrArg List.length hnil
        rw [sortedEntries, List.length_insertionSort, hlen_entries] at hc
        simpa using hc
      rw [buildEquityCurve, equityScan_getLast_value 0 _ hne, zero_add]
      have hperm := (sortedEntries_perm trades deposits).map Entry.delta
      rw [hperm.sum_eq]
      simp [entriesOf, Function.comp_def]
  · intro ht hd
    subst ht
    subst hd
    rfl

/-- C1 witness: at the empty inputs the hypotheses of the final
conjunct hold and the curve is the empty sequence. -/
theorem buildEquityCurve_length_last_value_witness :
    buildEquityCurve [] [] = [] :=
  (buildEquityCurve_length_last_value [] []).2.2 rfl rfl

/-- C2: the P&L of a `win` trade is exactly its amount and the P&L of
a `loss` trade is exactly the negated amount; the sign is fully
determined by the outcome, never by the sign of the stored amount. -/
theorem calculatePnl_sign_from_outcome (trade : Trade) :
    (trade.outcome = TradeOutcome.win → calculatePnl trade = trade.amount) ∧
    (trade.outcome = TradeOutcome.loss → calculatePnl trade = -trade.amount) := by
  constructor
  · intro h
    simp [calculatePnl, h]
  · intro h
    simp [calculatePnl, h]

/-- C2 witness: concrete win and loss trades evaluate to `+amount` and
`-amount` respectively. -/
theorem calculatePnl_sign_from_outcome_witness :
    calculatePnl winTrade200 = winTrade200.amount ∧
    calculatePnl lossTrade300 = -lossTrade300.amount :=
  ⟨(calculatePnl_sign_from_outcome winTrade200).1 rfl,
   (calculatePnl_sign_from_outcome lossTrade300).2 rfl⟩

/-- C7: the empty trade list is a terminal case of `calculateMetrics`
returning exactly all-zero/null metrics, not derived by dividing by
zero. -/
theorem calculateMetrics_empty_terminal :
    calculateMetrics [] =
      { netPnl := 0, winRate := 0, profitFactor := none, riskReward := none,
        maxDrawdown := 0, averageWin := none, averageLoss := none, totalTrades := 0 } := rfl

/-- C3: in the sequence returned by `buildEquityCurve` the points are
ordered ascending by parsed date, and within every parsed-date class
the events keep exactly their relative order from the concatenation
(all trade events of that date first, then all deposit events, each in
original input-list order) — the stable-sort guarantee.  The last
conjunct transports the statement from the sorted entries to the
emitted points, which reproduce the entries' dates and deltas
positionally. -/
theorem equityCurve_sorted_and_stable (trades : List Trade) (deposits : List CashMove) :
    (sortedEntries trades deposits).Pairwise entryLE ∧
    (∀ k : ℕ,
      (sortedEntries trades deposits).filter (fun e => parseISOKey e.date == k) =
        (entriesOf trades deposits).filter (fun e => parseISOKey e.date == k)) ∧
    (buildEquityCurve trades deposits).map (fun p => (p.date, p.pnl)) =
      (sortedEntries trades deposits).map (fun e => (e.date, e.delta)) := by
  refine ⟨?_, ?_, ?_⟩
  · exact List.sorted_insertionSort entryLE (entriesOf trades deposits)
  · intro k
    apply filter_insertionSort_of_mutual
    intro a b ha hb
    have ha' : parseISOKey a.date = k := by simpa using ha
    have hb' : parseISOKey b.date = k := by simpa using hb
    unfold entryLE
    rw [ha', hb']
  · rw [buildEquityCurve]
    exact equityScan_map_date_pnl 0 _

/-- C4: the `maxDrawdown` of `calculateMetrics` is computed from the
equity curve built from the trades only (no deposits) and equals the
maximum over the curve's points of (running peak minus value) with the
peak seeded at 0; on spec Scenario D (deposit of 1000 on 2024-01-01,
losing trade of 300 on 2024-01-02) the metrics report
`maxDrawdown = 300` even though the full curve with the deposit is
`[1000, 700]`. -/
theorem maxDrawdown_trades_only (trades : List Trade) :
    (calculateMetrics trades).maxDrawdown =
      drawdownSpec ((buildEquityCurve trades []).map (fun p => p.value)) ∧
    (calculateMetrics [lossTrade300]).maxDrawdown = 300 ∧
    (buildEquityCurve [lossTrade300] [deposit1000]).map (fun p => p.value) = [1000, 700] := by
  refine ⟨?_, ?_, ?_⟩
  · by_cases h : trades = []
    · subst h
      rfl
    · rw [maxDrawdown_of_ne_nil trades h, ddLoop_eq_ddVals, ddVals_eq_spec]
      rfl
  · simp [calculateMetrics, buildEquityCurve, sortedEntries, entriesOf, equityScan,
      lossTrade300, pnlsOf, winnersOf, losersOf, calculatePnl, entryLE, parseISOKey, ddLoop]
  · simp [buildEquityCurve, sortedEntries, entriesOf, equityScan, lossTrade300, deposit1000,
      calculatePnl, entryLE, parseISOKey]
    norm_num

/-- C5 counterexample: for a single losing trade the trades-only
equity curve `[-300]` is non-decreasing in the claim's sense (each
point's value at least the previous point's value, vacuously true), yet
`maxDrawdown` is 300 ≠ 0, because the running peak is seeded at 0 above
the curve's first value. -/
theorem maxDrawdown_nondecreasing_counterexample :
    ((buildEquityCurve [lossTrade300] []).map (fun p => p.value)).Chain'
        (fun a b => a ≤ b) ∧
    (calculateMetrics [lossTrade300]).maxDrawdown ≠ 0 := by
  constructor
  · simp [buildEquityCurve, sortedEntries, entriesOf, equityScan, lossTrade300,
      calculatePnl, entryLE, parseISOKey]
  · simp [calculateMetrics, buildEquityCurve, sortedEntries, entriesOf, equityScan,
      lossTrade300, pnlsOf, winnersOf, losersOf, calculatePnl, entryLE, parseISOKey, ddLoop]

/-- C5 amended: `maxDrawdown` is always ≥ 0, and it equals 0 whenever
the trades-only equity curve is non-decreasing *including the initial
equity 0 prepended as a virtual starting point* (equivalently:
consecutive points non-decreasing and the first value ≥ 0). -/
theorem maxDrawdown_nonneg_and_zero_on_nondecreasing (trades : List Trade) :
    0 ≤ (calculateMetrics trades).maxDrawdown ∧
    ((0 :: (buildEquityCurve trades []).map (fun p => p.value)).Chain'
        (fun a b => a ≤ b) →
      (calculateMetrics trades).maxDrawdown = 0) := by
  constructor
  · by_cases h : trades = []
    · subst h
      exact le_refl 0
    · rw [maxDrawdown_of_ne_nil trades h]
      exact ddLoop_ge 0 0 (buildEquityCurve trades [])
  · intro hchain
    have hchain' : List.Chain (fun a b => a ≤ b) 0
        ((buildEquityCurve trades []).map (fun p => p.value)) := hchain
    by_cases h : trades = []
    · subst h
      rfl
    · rw [maxDrawdown_of_ne_nil trades h]
      exact ddLoop_of_chain (buildEquityCurve trades []) 0 0 (le_refl 0) hchain'

/-- C5 amended witness: one winning trade gives the 0-prepended
non-decreasing curve `[0, 200]` and `maxDrawdown = 0`. -/
theorem maxDrawdown_nonneg_and_zero_on_nondecreasing_witness :
    0 ≤ (calculateMetrics [winTrade200]).maxDrawdown ∧
    (calculateMetrics [winTrade200]).maxDrawdown = 0 :=
  ⟨(maxDrawdown_nonneg_and_zero_on_nondecreasing [winTrade200]).1,
   (maxDrawdown_nonneg_and_zero_on_nondecreasing [winTrade200]).2 (by
      simp [buildEquityCurve, sortedEntries, entriesOf, equityScan, winTrade200,
        calculatePnl, entryLE, parseISOKey])⟩

/-- C6: for non-empty trades, `profitFactor` is
`sum(winners) / |sum(losers)|` when both partitions are non-empty, and
both `profitFactor` and `riskReward` are `none` whenever winners or
losers is empty.  (The model computes in exact rationals, where
`Infinity`/`NaN` cannot arise; the guards below are what keeps the
source's floating-point division away from zero denominators.) -/
theorem profitFactor_riskReward_null_guard (trades : List Trade) (h : trades ≠ []) :
    (winnersOf trades ≠ [] → losersOf trades ≠ [] →
      (calculateMetrics trades).profitFactor =
        some (sumQ (winnersOf trades) / |sumQ (losersOf trades)|)) ∧
    (winnersOf trades = [] ∨ losersOf trades = [] →
      (calculateMetrics trades).profitFactor = none ∧
      (calculateMetrics trades).riskReward = none) := by
  constructor
  · intro hw hl
    rw [profitFactor_of_ne_nil trades h,
      if_pos ⟨length_ne_zero_of_ne_nil hw, length_ne_zero_of_ne_nil hl⟩]
  · intro hcase
    rcases hcase with hw | hl
    · have hwz : (winnersOf trades).length = 0 := by rw [hw]; rfl
      constructor
      · rw [profitFactor_of_ne_nil trades h, if_neg]
        rintro ⟨h1, _⟩
        exact h1 hwz
      · rw [riskReward_of_ne_nil trades h]
        simp [hwz]
    · have hlz : (losersOf trades).length = 0 := by rw [hl]; rfl
      constructor
      · rw [profitFactor_of_ne_nil trades h, if_neg]
        rintro ⟨_, h2⟩
        exact h2 hlz
      · rw [riskReward_of_ne_nil trades h]
        cases hwi : (if (winnersOf trades).length ≠ 0 then
            some (sumQ (winnersOf trades) / ((winnersOf trades).length : ℚ)) else none) with
        | none => simp [hlz]
        | some aw => simp [hlz]

/-- C6 witness: a mixed win/loss list has
`profitFactor = 200/300`; an all-win list has `profitFactor = none` and
`riskReward = none`. -/
theorem profitFactor_riskReward_null_guard_witness :
    (calculateMetrics [winTrade200, lossTrade300]).profitFactor = some ((200 : ℚ) / 300) ∧
    (calculateMetrics [winTrade200]).profitFactor = none ∧
    (calculateMetrics [winTrade200]).riskReward = none := by
  have hmix := (profitFactor_riskReward_null_guard [winTrade200, lossTrade300] (by simp)).1
    (by simp [winnersOf, pnlsOf, calculatePnl, winTrade200, lossTrade300])
    (by simp [losersOf, pnlsOf, calculatePnl, winTrade200, lossTrade300])
  have hone := (profitFactor_riskReward_null_guard [winTrade200] (by simp)).2
    (Or.inr (by simp [losersOf, pnlsOf, calculatePnl, winTrade200]))
  refine ⟨?_, hone.1, hone.2⟩
  rw [hmix]
  simp [sumQ, winnersOf, losersOf, pnlsOf, calculatePnl, winTrade200, lossTrade300]

/-- C8: the values of the mapping returned by `aggregateDailyPnl` sum
to the `netPnl` of `calculateMetrics` on the same trade list, and a
date string is present as a key if and only if at least one input
trade carries that date (even when the day's summed P&L is exactly
zero).  Deposits never reach the aggregation: `aggregateDailyPnl`
consumes only the trade list. -/
theorem aggregateDailyPnl_total_and_keys (trades : List Trade) :
    ((aggregateDailyPnl trades).map (fun kv => kv.2)).sum =
      (calculateMetrics trades).netPnl ∧
    (∀ d : String,
      d ∈ (aggregateDailyPnl trades).map (fun kv => kv.1) ↔ ∃ t ∈ trades, t.date = d) := by
  constructor
  · rw [aggregateDailyPnl, aggregate_foldl_sum trades []]
    simp only [List.map_nil, List.sum_nil, zero_add]
    by_cases h : trades = []
    · subst h
      rfl
    · rw [netPnl_of_ne_nil trades h, sumQ_eq_sum, pnlsOf]
  · intro d
    rw [aggregateDailyPnl, aggregate_foldl_keys trades [] d]
    simp

/-- C9: for non-empty trades, `winRate` is the count of strictly
positive per-trade P&Ls divided by the number of trades, times 100;
`totalTrades` is the input length; zero-P&L trades (possible only when
`amount = 0`) are excluded from both the winners and losers
partitions; and `winRate` always lies between 0 and 100. -/
theorem winRate_partition_and_bounds (trades : List Trade) (h : trades ≠ []) :
    (calculateMetrics trades).winRate =
      ((winnersOf trades).length : ℚ) / (trades.length : ℚ) * 100 ∧
    (calculateMetrics trades).totalTrades = trades.length ∧
    (winnersOf trades).length + (losersOf trades).length +
        ((pnlsOf trades).filter (fun p => decide (p = 0))).length = trades.length ∧
    (∀ t ∈ trades, (calculatePnl t = 0 ↔ t.amount = 0)) ∧
    0 ≤ (calculateMetrics trades).winRate ∧ (calculateMetrics trades).winRate ≤ 100 := by
  have hrate := winRate_of_ne_nil trades h
  have hwlen : (winnersOf trades).length ≤ trades.length := by
    calc (winnersOf trades).length ≤ (pnlsOf trades).length :=
          List.length_filter_le _ _
    _ = trades.length := by simp [pnlsOf]
  have hn : (0 : ℚ) < (trades.length : ℚ) := by
    exact_mod_cast List.length_pos.mpr h
  refine ⟨hrate, totalTrades_of_ne_nil trades h, ?_, ?_, ?_, ?_⟩
  · have hpart := filter_length_partition (pnlsOf trades)
    rw [winnersOf, losersOf]
    rw [hpart]
    simp [pnlsOf]
  · intro t _
    exact calculatePnl_eq_zero_iff t
  · rw [hrate]
    have h0 : (0 : ℚ) ≤ ((winnersOf trades).length : ℚ) / (trades.length : ℚ) :=
      div_nonneg (by exact_mod_cast Nat.zero_le _) (le_of_lt hn)
    nlinarith
  · rw [hrate]
    have h1 : ((winnersOf trades).length : ℚ) / (trades.length : ℚ) ≤ 1 :=
      (div_le_one hn).mpr (by exact_mod_cast hwlen)
    nlinarith

/-- C9 witness: one win and one loss give `totalTrades = 2` and
`winRate = 50`. -/
theorem winRate_partition_and_bounds_witness :
    (calculateMetrics [winTrade200, lossTrade300]).totalTrades = 2 ∧
    (calculateMetrics [winTrade200, lossTrade300]).winRate = 50 := by
  have hm := winRate_partition_and_bounds [winTrade200, lossTrade300] (by simp)
  constructor
  · rw [hm.2.1]
    rfl
  · rw [hm.1]
    simp [winnersOf, pnlsOf, calculatePnl, winTrade200, lossTrade300]
    norm_num

/-- C10: every output field of `calculateMetrics` except `maxDrawdown`
is invariant under permutation of the input trade list: it depends
only on the multiset of trades, not on their order. -/
theorem metrics_order_invariant (t1 t2 : List Trade) (h : List.Perm t1 t2) :
    (calculateMetrics t1).netPnl = (calculateMetrics t2).netPnl ∧
    (calculateMetrics t1).winRate = (calculateMetrics t2).winRate ∧
    (calculateMetrics t1).profitFactor = (calculateMetrics t2).profitFactor ∧
    (calculateMetrics t1).riskReward = (calculateMetrics t2).riskReward ∧
    (calculateMetrics t1).averageWin = (calculateMetrics t2).averageWin ∧
    (calculateMetrics t1).averageLoss = (calculateMetrics t2).averageLoss ∧
    (calculateMetrics t1).totalTrades = (calculateMetrics t2).totalTrades := by
  by_cases hnil : t1 = []
  · subst hnil
    have h2 : t2 = [] := h.nil_eq.symm
    subst h2
    exact ⟨rfl, rfl, rfl, rfl, rfl, rfl, rfl⟩
  · have hnil2 : t2 ≠ [] := by
      intro hc
      subst hc
      exact hnil h.eq_nil
    have hp : List.Perm (pnlsOf t1) (pnlsOf t2) := h.map calculatePnl
    have hw : List.Perm (winnersOf t1) (winnersOf t2) := hp.filter _
    have hl : List.Perm (losersOf t1) (losersOf t2) := hp.filter _
    have hps : sumQ (pnlsOf t1) = sumQ (pnlsOf t2) := by
      rw [sumQ_eq_sum, sumQ_eq_sum, hp.sum_eq]
    have hws : sumQ (winnersOf t1) = sumQ (winnersOf t2) := by
      rw [sumQ_eq_sum, sumQ_eq_sum, hw.sum_eq]
    have hls : sumQ (losersOf t1) = sumQ (losersOf t2) := by
      rw [sumQ_eq_sum, sumQ_eq_sum, hl.sum_eq]
    have hwl : (winnersOf t1).length = (winnersOf t2).length := hw.length_eq
    have hll : (losersOf t1).length = (losersOf t2).length := hl.length_eq
    have hlen : t1.length = t2.length := h.length_eq
    refine ⟨?_, ?_, ?_, ?_, ?_, ?_, ?_⟩
    · rw [netPnl_of_ne_nil t1 hnil, netPnl_of_ne_nil t2 hnil2, hps]
    · rw [winRate_of_ne_nil t1 hnil, winRate_of_ne_nil t2 hnil2, hwl, hlen]
    · rw [profitFactor_of_ne_nil t1 hnil, profitFactor_of_ne_nil t2 hnil2,
        hwl, hll, hws, hls]
    · rw [riskReward_of_ne_nil t1 hnil, riskReward_of_ne_nil t2 hnil2,
        hwl, hll, hws, hls]
    · rw [averageWin_of_ne_nil t1 hnil, averageWin_of_ne_nil t2 hnil2, hwl, hws]
    · rw [averageLoss_of_ne_nil t1 hnil, averageLoss_of_ne_nil t2 hnil2, hll, hls]
    · rw [totalTrades_of_ne_nil t1 hnil, totalTrades_of_ne_nil t2 hnil2, hlen]

/-- C10 witness: swapping two concrete trades leaves `netPnl` and
`winRate` unchanged. -/
theorem metrics_order_invariant_witness :
    (calculateMetrics [winTrade200, lossTrade300]).netPnl =
      (calculateMetrics [lossTrade300, winTrade200]).netPnl ∧
    (calculateMetrics [winTrade200, lossTrade300]).winRate =
      (calculateMetrics [lossTrade300, winTrade200]).winRate :=
  ⟨(metrics_order_invariant [winTrade200, lossTrade300] [lossTrade300, winTrade200]
      (List.Perm.swap lossTrade300 winTrade200 [])).1,
   (metrics_order_invariant [winTrade200, lossTrade300] [lossTrade300, winTrade200]
      (List.Perm.swap lossTrade300 winTrade200 [])).2.1⟩

end Reflect
